import Mathlib

/-!
Verification of the media download coordination engine of this repository
(the `MediaPipeline` of `scrapy/pipelines/media.py`; its behavioral contract
is pinned by `src/tests/test_pipeline_media.py`).

The pipeline source file itself is not part of the provided slice, so the
engine is modelled from the specification (sections 3, 4.1, 4.2, 4.3 and 5 of
`spec.md`), constrained by the assertions of the test suite that is part of
the slice.  Stateful, cooperatively scheduled code is embedded as an explicit
state machine: an `EngineState` value plus a `step` function over dispatch
and resolve events; a session run is a fold of `step` over an arbitrary
event trace.
-/

/-! ## Basic data model -/

/-- Resource identifiers: opaque, comparable values produced by the injected
request fingerprinter (`crawler.request_fingerprinter.fingerprint`). -/
abbrev Fp := Nat

/-- A handle identifying one caller (one per-request deferred, `wad` in the
source) that waits for an outcome. -/
abbrev WaiterId := Nat

/-- Opaque payload values (responses, canned results). -/
abbrev Val := Nat

/-- Opaque items flowing through `process_item`. -/
abbrev Item := Nat

/-- Exception classes relevant to the engine.  `stopIteration` stands for
Python's `StopIteration` / Twisted's `_DefGen_Return` (the exception Twisted
uses to carry an inline-callback return value); `fileException` stands for
`scrapy.pipelines.files.FileException`; `genericException` for anything
else. -/
inductive ExcKind where
  | stopIteration
  | fileException
  | genericException
deriving DecidableEq

/-- A Python exception value: its class together with its `__context__`
chain (PEP 3134 exception chaining). -/
inductive Exc where
  | mk (kind : ExcKind) (ctx : Option Exc)

def Exc.kind : Exc → ExcKind
  | .mk k _ => k

def Exc.ctx : Exc → Option Exc
  | .mk _ c => c

def Exc.decEq : (a b : Exc) → Decidable (a = b)
  | .mk k1 none, .mk k2 none =>
      if h : k1 = k2 then isTrue (by rw [h])
      else isFalse (fun hh => by injection hh with h1 h2; exact h h1)
  | .mk k1 (some x), .mk k2 (some y) =>
      if h : k1 = k2 then
        match Exc.decEq x y with
        | isTrue hx => isTrue (by rw [h, hx])
        | isFalse hx =>
            isFalse (fun hh => by
              injection hh with h1 h2
              exact hx (Option.some.inj h2))
      else isFalse (fun hh => by injection hh with h1 h2; exact h h1)
  | .mk _ none, .mk _ (some _) =>
      isFalse (fun hh => by injection hh with h1 h2; exact Option.noConfusion h2)
  | .mk _ (some _), .mk _ none =>
      isFalse (fun hh => by injection hh with h1 h2; exact Option.noConfusion h2)

instance : DecidableEq Exc := Exc.decEq

/-- Outcome of a sub-download: a tagged union of a success value (a response)
or a failure (a Twisted `Failure` wrapping an exception value). -/
inductive Outcome where
  | success (v : Val)
  | failure (e : Exc)
deriving DecidableEq

def Outcome.isSuccess : Outcome → Bool
  | .success _ => true
  | .failure _ => false

/-- Modelled from the spec: a media request as seen by the engine.  The
fingerprinter is an injected pure function, so the request carries its
fingerprint directly; `metaResult` models the `meta` entry read by the
`media_to_download` filter hook (a canned, pre-resolved result, as in
`Request(url, meta=dict(result=...))` in the tests). -/
structure MediaRequest where
  fp : Fp
  metaResult : Option Val
deriving DecidableEq

/-! ## Association lists

The coordination maps (`waiting`, `downloaded`) are Python dicts; they are
embedded as association lists with first-match lookup (a fresh binding is
prepended, so lookup sees the newest binding, matching dict assignment). -/

def alookup {κ : Type} [DecidableEq κ] {β : Type} : List (κ × β) → κ → Option β
  | [], _ => none
  | (k, v) :: t, q => if k = q then some v else alookup t q

/-- Appending a waiter: `info.waiting[fp].append(wad)` on a `defaultdict(list)`
appends to the existing list, creating an empty list first when absent. -/
def appendWaiter (l : List (Fp × List WaiterId)) (k : Fp) (w : WaiterId) :
    List (Fp × List WaiterId) :=
  match l with
  | [] => [(k, [w])]
  | (k', ws) :: t =>
      if k' = k then (k', ws ++ [w]) :: t else (k', ws) :: appendWaiter t k w

/-- Removing a key: `info.waiting.pop(fp)`. -/
def removeKey {β : Type} (l : List (Fp × β)) (k : Fp) : List (Fp × β) :=
  l.filter (fun p => p.1 != k)

/-! ## Coordination state

Modelled from the spec (section 3, "Coordination State") and from the
attributes exercised by the tests (`info.downloading`, `info.waiting`,
`info.downloaded` of `MediaPipeline.SpiderInfo`). -/

structure SpiderInfo where
  downloading : List Fp
  waiting : List (Fp × List WaiterId)
  downloaded : List (Fp × Outcome)
deriving DecidableEq

/-- Hook invocations the engine performs on first resolution of an
identifier (`media_downloaded` on success, `media_failed` on failure). -/
inductive HookCall where
  | mediaDownloaded (fp : Fp)
  | mediaFailed (fp : Fp)
deriving DecidableEq

def HookCall.fp : HookCall → Fp
  | .mediaDownloaded k => k
  | .mediaFailed k => k

/-- The engine state: the per-session coordination maps plus observation
logs that record, in order, every Downloader invocation, every
success/failure hook invocation, every waiter registration and every waiter
resolution.  The logs embed the side effects the claims quantify over. -/
structure EngineState where
  info : SpiderInfo
  dlCalls : List Fp
  hookCalls : List HookCall
  regs : List (WaiterId × Fp)
  deliveries : List (WaiterId × Fp × Outcome)
deriving DecidableEq

/-- Session start (`open_spider` allocating a fresh `SpiderInfo`). -/
def initState : EngineState :=
  { info := { downloading := [], waiting := [], downloaded := [] }
    dlCalls := []
    hookCalls := []
    regs := []
    deliveries := [] }

/-- What a dispatch call hands back to its caller immediately: either an
already-settled outcome (pre-resolved or cached fast path) or a suspended
deferred waiting for the given identifier. -/
inductive DispatchRes where
  | resolved (o : Outcome)
  | waitingFor (fp : Fp)
deriving DecidableEq

/-! ## Engine operations -/

/-- Modelled from the spec (section 4.1, `request_one`; the source method is
`MediaPipeline._process_request`, absent from the slice): the deduplicating
dispatch of one request.

* The `media_to_download` filter hook runs first; a canned (pre-resolved)
  result bypasses the Downloader entirely and, per the spec's explicit
  design note, is evaluated per request and never entered into the dedup
  cache.
* Identifier in `downloaded`: return the cached outcome, touch nothing.
* Identifier in `downloading`: register a continuation in `waiting[fp]`.
* Identifier unseen: mark it downloading, register the caller's own
  continuation, and invoke the Downloader (logged in `dlCalls`). -/
def processRequest (w : WaiterId) (r : MediaRequest) (st : EngineState) :
    DispatchRes × EngineState :=
  match r.metaResult with
  | some v => (.resolved (.success v), st)
  | none =>
      match alookup st.info.downloaded r.fp with
      | some o => (.resolved o, st)
      | none =>
          if r.fp ∈ st.info.downloading then
            (.waitingFor r.fp,
              { st with
                  info := { st.info with
                    waiting := appendWaiter st.info.waiting r.fp w }
                  regs := st.regs ++ [(w, r.fp)] })
          else
            (.waitingFor r.fp,
              { st with
                  info := { st.info with
                    downloading := st.info.downloading ++ [r.fp]
                    waiting := appendWaiter st.info.waiting r.fp w }
                  regs := st.regs ++ [(w, r.fp)]
                  dlCalls := st.dlCalls ++ [r.fp] })

/-- Modelled from the spec and from
`test_should_remove_req_res_references_before_caching_the_results`: before a
`Failure` outcome is cached, if the wrapped exception's `__context__` is the
`StopIteration` / `_DefGen_Return` carrying a returned `Response`, that
context is dropped so the session-lifetime cache does not retain the
`Response`. -/
def stripDefGenContext (o : Outcome) : Outcome :=
  match o with
  | .success v => .success v
  | .failure e =>
      match e.ctx with
      | some c =>
          match c.kind with
          | .stopIteration => .failure (.mk e.kind none)
          | _ => .failure e
      | none => .failure e

/-- Modelled from the spec (section 4.1, step 3, resolution) and from the
direct use in the tests: `MediaPipeline._cache_result_and_execute_waiters`.
Atomically moves the identifier from `downloading` to `downloaded` with the
(context-stripped) result and fires every queued continuation, in
registration order, with that same cached result. -/
def cacheResultAndExecuteWaiters (result : Outcome) (fp : Fp)
    (st : EngineState) : EngineState :=
  let cached := stripDefGenContext result
  let ws := (alookup st.info.waiting fp).getD []
  { st with
      info := { st.info with
        downloading := st.info.downloading.filter (fun x => x != fp)
        waiting := removeKey st.info.waiting fp
        downloaded := (fp, cached) :: st.info.downloaded }
      deliveries := st.deliveries ++ ws.map (fun w => (w, fp, cached)) }

/-- The success/failure policy hook fired on the raw Downloader outcome at
first resolution (`media_downloaded` / `media_failed`); the default hooks
are identity, so only the invocation is observable (logged). -/
def hookFor (raw : Outcome) (fp : Fp) : HookCall :=
  match raw with
  | .success _ => .mediaDownloaded fp
  | .failure _ => .mediaFailed fp

/-- Events of a session: a caller dispatching a request through the engine,
or the in-flight download of an identifier completing with a raw outcome.
A `resolve` for an identifier that is not in flight is a no-op (the engine
only ever wires the completion callback onto a download it issued). -/
inductive Event where
  | dispatch (w : WaiterId) (r : MediaRequest)
  | resolve (fp : Fp) (raw : Outcome)
deriving DecidableEq

def step (st : EngineState) (e : Event) : EngineState :=
  match e with
  | .dispatch w r => (processRequest w r st).2
  | .resolve fp raw =>
      if fp ∈ st.info.downloading then
        cacheResultAndExecuteWaiters raw fp
          { st with hookCalls := st.hookCalls ++ [hookFor raw fp] }
      else st

/-- A session run: interleaved dispatches and completions under
single-threaded cooperative scheduling (spec section 5). -/
def run (st : EngineState) : List Event → EngineState
  | [] => st
  | e :: t => run (step st e) t

/-! ## Per-item completion barrier

Modelled from the spec (section 4.2, `process_item`; source method
`MediaPipeline.process_item`, absent from the slice) and from the tests'
result assertions. -/

/-- The polymorphic return of the `get_media_requests` policy hook: nothing
(`None`, the default), a single request, or an iterable of requests. -/
inductive HookRequests where
  | noRequests
  | single (r : MediaRequest)
  | many (rs : List MediaRequest)
deriving DecidableEq

/-- Modelled from the spec (section 4.2, step 1; the source helper is
`scrapy.utils.misc.arg_to_iter`, absent from the slice): normalize the hook
result to an order-preserving sequence; absence means no sub-downloads. -/
def argToIter : HookRequests → List MediaRequest
  | .noRequests => []
  | .single r => [r]
  | .many rs => rs

/-- Dispatch every normalized request of one item through the deduplicating
dispatcher, in order, numbering the item's per-request continuations from
`w0` (spec section 4.2, step 2). -/
def dispatchItem (w0 : WaiterId) (hr : HookRequests) (st : EngineState) :
    EngineState :=
  run st ((argToIter hr).enum.map (fun p => Event.dispatch (w0 + p.1) p.2))

/-- The settled outcome one request of an item contributes once the whole
session has quiesced: a canned `media_to_download` result contributes an
immediate success; otherwise the per-request deferred has been fired with
the cached outcome of the request's identifier. -/
def finalOutcome (st : EngineState) (r : MediaRequest) : Option Outcome :=
  match r.metaResult with
  | some v => some (.success v)
  | none => alookup st.info.downloaded r.fp

/-- One entry of the results list handed to `item_completed`: a
`(success, value)` pair. -/
def resultEntry (o : Outcome) : Bool × Outcome := (o.isSuccess, o)

/-- Modelled from the spec (section 4.2, step 3): once every dispatched
request has an outcome, the completion barrier (a `DeferredList` over the
per-request deferreds in dispatch order) presents the `(success, value)`
pairs in the item's original request order, regardless of the order in
which outcomes arrived.  An entry is `none` only for a sub-download that
has not settled yet. -/
def itemResults (st : EngineState) (reqs : List MediaRequest) :
    List (Option (Bool × Outcome)) :=
  reqs.map (fun r => (finalOutcome st r).map resultEntry)

/-- Severity of an emitted log record. -/
inductive LogLevel where
  | error
deriving DecidableEq

/-- A log record as observed by the tests: its severity and the failure
value whose error context (`exc_info`) it carries. -/
structure LogRecord where
  level : LogLevel
  excInfo : Outcome
deriving DecidableEq

/-- Modelled from the spec (section 4.2, step 4 side effect) and from
`test_default_item_completed`: the default `item_completed` finalizer
returns the item unchanged; when `LOG_FAILED_RESULTS` is enabled it emits
one ERROR record per failed entry, carrying that failure's error context,
and none when disabled. -/
def itemCompleted (results : List (Bool × Outcome)) (item : Item)
    (logFailedResults : Bool) : Item × List LogRecord :=
  (item,
    if logFailedResults then
      (results.filter (fun p => !p.1)).map (fun p => ⟨.error, p.2⟩)
    else [])

/-! ## Redirect-handling policy for sub-downloads

Modelled from the spec (section 4.3) and from the assertions of
`test_modify_media_request` and `MediaPipelineAllowRedirectSettingsTestCase`
(the source methods `MediaPipeline._handle_statuses`,
`MediaPipeline._modify_media_request` and `MediaPipeline._key_for_pipe` are
absent from the slice; the tests pin their observable behavior). -/

/-- The status-code set stored under `meta` key `handle_httpstatus_list`:
`scrapy.utils.datatypes.SequenceExclude(range(lo, hi))` — membership is the
complement of the range. -/
inductive StatusSet where
  | seqExclude (lo hi : Nat)
deriving DecidableEq

def StatusSet.contains : StatusSet → Nat → Bool
  | .seqExclude lo hi, n => !(lo ≤ n && n < hi)

/-- The `meta` entries of a media request that govern which HTTP statuses
downstream middleware hands over as a normal response instead of acting on
them (raising or following redirects). -/
structure MediaMeta where
  handle_httpstatus_list : Option StatusSet := none
  handle_httpstatus_all : Bool := false
deriving DecidableEq

/-- Does the tagged request treat the given status code as a normal
response to be handed to the pipeline (not raised, not auto-followed)?
`handle_httpstatus_all` handles every status; otherwise the
`handle_httpstatus_list` set decides; an untagged request handles none
specially. -/
def MediaMeta.handles (m : MediaMeta) (status : Nat) : Bool :=
  if m.handle_httpstatus_all then true
  else
    match m.handle_httpstatus_list with
    | some s => s.contains status
    | none => false

/-- Per the tests: with `MEDIA_ALLOW_REDIRECTS` enabled the pipeline keeps
a `handle_httpstatus_list` excluding the whole 3xx range (so the downloader
itself follows redirects); with it disabled (the default) there is no such
list. -/
def handleStatuses (allowRedirects : Bool) : Option StatusSet :=
  if allowRedirects then some (.seqExclude 300 400) else none

/-- Tag one media request's `meta` (source `_modify_media_request`): store
the status list when one is configured, else mark every status as handled
(`handle_httpstatus_all`, asserted by `test_modify_media_request`). -/
def modifyMediaRequest (hls : Option StatusSet) (meta : MediaMeta) :
    MediaMeta :=
  match hls with
  | some s => { meta with handle_httpstatus_list := some s }
  | none => { meta with handle_httpstatus_all := true }

/-- Settings: a map from setting name to boolean value; `getbool` with
default `false` is `(alookup s key).getD false`. -/
abbrev PipeSettings := List (String × Bool)

/-- Uppercasing of a class name (`class_name.upper()` in the source). -/
def upperName (s : String) : String := ⟨s.data.map Char.toUpper⟩

/-- Resolve the setting key for a concrete pipeline subclass (source
`_key_for_pipe` with `base_class_name="MediaPipeline"`): a subclass whose
class-prefixed key is present (and truthy) uses the prefixed key, otherwise
the plain key. -/
def keyForPipe (className : String) (settings : PipeSettings)
    (key : String) : String :=
  let formatted := upperName className ++ "_" ++ key
  if className = "MediaPipeline" ∨ (alookup settings formatted).getD false = false
  then key else formatted

/-- The per-pipeline `allow_redirects` flag: global `MEDIA_ALLOW_REDIRECTS`
default, overridable per concrete subclass via
`<CLASSNAME>_MEDIA_ALLOW_REDIRECTS`. -/
def getAllowRedirects (className : String) (settings : PipeSettings) : Bool :=
  (alookup settings (keyForPipe className settings "MEDIA_ALLOW_REDIRECTS")).getD false

/-- The `meta` a pipeline of the given class under the given settings puts
on each media request it downloads. -/
def mediaRequestMeta (className : String) (settings : PipeSettings) :
    MediaMeta :=
  modifyMediaRequest (handleStatuses (getAllowRedirects className settings)) {}

/-! ## Association-list and log lemmas -/

theorem alookup_appendWaiter_self (l : List (Fp × List WaiterId)) (k : Fp)
    (w : WaiterId) :
    alookup (appendWaiter l k w) k = some ((alookup l k).getD [] ++ [w]) := by
  induction l with
  | nil => simp [appendWaiter, alookup]
  | cons p t ih =>
      obtain ⟨k', ws⟩ := p
      by_cases hk : k' = k
      · subst hk
        simp [appendWaiter, alookup]
      · simp [appendWaiter, alookup, hk, ih]

theorem alookup_appendWaiter_ne (l : List (Fp × List WaiterId)) (k q : Fp)
    (w : WaiterId) (hq : q ≠ k) :
    alookup (appendWaiter l k w) q = alookup l q := by
  induction l with
  | nil =>
      simp [appendWaiter, alookup]
      intro hkq
      exact absurd hkq.symm hq
  | cons p t ih =>
      obtain ⟨k', ws⟩ := p
      by_cases hk : k' = k
      · subst hk
        have : k' ≠ q := fun hh => hq hh.symm
        simp [appendWaiter, alookup, this]
      · simp [appendWaiter, alookup, hk, ih]

theorem alookup_removeKey_self {β : Type} (l : List (Fp × β)) (k : Fp) :
    alookup (removeKey l k) k = none := by
  induction l with
  | nil => simp [removeKey, alookup]
  | cons p t ih =>
      obtain ⟨k', v⟩ := p
      by_cases hk : k' = k
      · subst hk
        simpa [removeKey, List.filter_cons] using ih
      · simpa [removeKey, List.filter_cons, hk, alookup] using ih

theorem alookup_removeKey_ne {β : Type} (l : List (Fp × β)) (k q : Fp)
    (hq : q ≠ k) : alookup (removeKey l k) q = alookup l q := by
  induction l with
  | nil => simp [removeKey, alookup]
  | cons p t ih =>
      obtain ⟨k', v⟩ := p
      by_cases hk : k' = k
      · subst hk
        have hkq : k' ≠ q := fun hh => hq hh.symm
        simpa [removeKey, List.filter_cons, hkq, alookup] using ih
      · have ih2 : alookup (List.filter (fun p => p.1 != k) t) q = alookup t q := by
          simpa [removeKey] using ih
        simp [removeKey, List.filter_cons, hk, alookup, ih2]

theorem mem_filter_bne (l : List Fp) (k x : Fp) :
    x ∈ l.filter (fun y => y != k) ↔ x ∈ l ∧ x ≠ k := by
  simp [List.mem_filter]

/-- The registrations logged for one identifier, in order. -/
def regsForL (regs : List (WaiterId × Fp)) (fp : Fp) : List WaiterId :=
  (regs.filter (fun p => p.2 == fp)).map Prod.fst

def regsFor (st : EngineState) (fp : Fp) : List WaiterId :=
  regsForL st.regs fp

/-- The waiter resolutions logged for one identifier, in order. -/
def deliveriesForL (l : List (WaiterId × Fp × Outcome)) (fp : Fp) :
    List (WaiterId × Fp × Outcome) :=
  l.filter (fun t => t.2.1 == fp)

def deliveriesFor (st : EngineState) (fp : Fp) :
    List (WaiterId × Fp × Outcome) :=
  deliveriesForL st.deliveries fp

/-- How many success/failure hook invocations were logged for one
identifier. -/
def hookCallsForL (l : List HookCall) (fp : Fp) : Nat :=
  (l.filter (fun h => h.fp == fp)).length

def hookCallsFor (st : EngineState) (fp : Fp) : Nat :=
  hookCallsForL st.hookCalls fp

theorem regsForL_append (l1 l2 : List (WaiterId × Fp)) (fp : Fp) :
    regsForL (l1 ++ l2) fp = regsForL l1 fp ++ regsForL l2 fp := by
  simp [regsForL, List.filter_append]

theorem regsForL_single (w : WaiterId) (k q : Fp) :
    regsForL [(w, k)] q = if k = q then [w] else [] := by
  by_cases hk : k = q <;> simp [regsForL, hk]

theorem deliveriesForL_append (l1 l2 : List (WaiterId × Fp × Outcome))
    (fp : Fp) :
    deliveriesForL (l1 ++ l2) fp = deliveriesForL l1 fp ++ deliveriesForL l2 fp := by
  simp [deliveriesForL, List.filter_append]

theorem deliveriesForL_map (ws : List WaiterId) (k q : Fp) (o : Outcome) :
    deliveriesForL (ws.map (fun w => (w, k, o))) q =
      if k = q then ws.map (fun w => (w, k, o)) else [] := by
  induction ws with
  | nil => simp [deliveriesForL]
  | cons w t ih =>
      by_cases hk : k = q
      · subst hk
        simp [deliveriesForL, ih]
      · simp [deliveriesForL, hk, ih]

theorem hookCallsForL_append (l1 l2 : List HookCall) (fp : Fp) :
    hookCallsForL (l1 ++ l2) fp = hookCallsForL l1 fp + hookCallsForL l2 fp := by
  simp [hookCallsForL, List.filter_append]

theorem hookCallsForL_single (c : HookCall) (q : Fp) :
    hookCallsForL [c] q = if c.fp = q then 1 else 0 := by
  by_cases hk : c.fp = q <;> simp [hookCallsForL, hk]

theorem hookFor_fp (raw : Outcome) (fp : Fp) : (hookFor raw fp).fp = fp := by
  cases raw <;> rfl

/-! ## The session invariant -/

/-- The coordination invariant maintained by every engine operation
(spec sections 3 and 5): the phase partition of each identifier, the
at-most-one-Downloader-call guarantee, FIFO bookkeeping of waiters, the
fan-out of the cached outcome to exactly the registered waiters in
registration order, and exactly-once firing of the success/failure hooks. -/
structure EngineInv (st : EngineState) : Prop where
  phase : ∀ fp, fp ∈ st.info.downloading ↔ (alookup st.info.waiting fp).isSome
  excl : ∀ fp, fp ∈ st.info.downloading → alookup st.info.downloaded fp = none
  dlNodup : st.dlCalls.Nodup
  dlChar : ∀ fp, fp ∈ st.dlCalls ↔
    (fp ∈ st.info.downloading ∨ (alookup st.info.downloaded fp).isSome)
  fifoWait : ∀ fp ws, alookup st.info.waiting fp = some ws → ws = regsFor st fp
  fifoDone : ∀ fp o, alookup st.info.downloaded fp = some o →
    deliveriesFor st fp = (regsFor st fp).map (fun w => (w, fp, o))
  noDeliv : ∀ fp, alookup st.info.downloaded fp = none → deliveriesFor st fp = []
  regsUnseen : ∀ fp, fp ∉ st.info.downloading →
    alookup st.info.downloaded fp = none → regsFor st fp = []
  hooksDone : ∀ fp, (alookup st.info.downloaded fp).isSome → hookCallsFor st fp = 1
  hooksNone : ∀ fp, alookup st.info.downloaded fp = none → hookCallsFor st fp = 0

theorem inv_init : EngineInv initState := by
  constructor <;>
    simp [initState, alookup, regsFor, regsForL, deliveriesFor, deliveriesForL,
      hookCallsFor, hookCallsForL]

theorem inv_step (st : EngineState) (e : Event) (h : EngineInv st) :
    EngineInv (step st e) := by
  obtain ⟨hphase, hexcl, hdlnd, hdlchar, hfw, hfd, hnd, hru, hhd, hhn⟩ := h
  cases e with
  | dispatch w r =>
      cases hm : r.metaResult with
      | some v =>
          have hst : step st (.dispatch w r) = st := by
            simp [step, processRequest, hm]
          rw [hst]
          exact ⟨hphase, hexcl, hdlnd, hdlchar, hfw, hfd, hnd, hru, hhd, hhn⟩
      | none =>
          cases hd : alookup st.info.downloaded r.fp with
          | some o =>
              have hst : step st (.dispatch w r) = st := by
                simp [step, processRequest, hm, hd]
              rw [hst]
              exact ⟨hphase, hexcl, hdlnd, hdlchar, hfw, hfd, hnd, hru, hhd, hhn⟩
          | none =>
              by_cases hdl : r.fp ∈ st.info.downloading
              · -- in flight: register one more waiter
                have hst : step st (.dispatch w r) =
                    { st with
                        info := { st.info with
                          waiting := appendWaiter st.info.waiting r.fp w }
                        regs := st.regs ++ [(w, r.fp)] } := by
                  simp [step, processRequest, hm, hd, hdl]
                rw [hst]
                have hregs : ∀ q, regsForL (st.regs ++ [(w, r.fp)]) q =
                    regsForL st.regs q ++ (if r.fp = q then [w] else []) := by
                  intro q
                  rw [regsForL_append, regsForL_single]
                constructor
                · intro q
                  by_cases hq : q = r.fp
                  · subst hq
                    simp [alookup_appendWaiter_self, hdl]
                  · simpa [alookup_appendWaiter_ne _ _ _ _ hq] using hphase q
                · exact hexcl
                · exact hdlnd
                · exact hdlchar
                · intro q ws hws
                  by_cases hq : q = r.fp
                  · subst hq
                    rw [alookup_appendWaiter_self] at hws
                    have hsome2 := (hphase r.fp).mp hdl
                    rcases Option.isSome_iff_exists.mp hsome2 with ⟨ws0, hws0⟩
                    rw [hws0] at hws
                    simp only [Option.getD_some] at hws
                    have hw0 : ws0 = regsForL st.regs r.fp := hfw r.fp ws0 hws0
                    have hws2 : ws = ws0 ++ [w] := by
                      injection hws with hh
                      exact hh.symm
                    rw [hws2, hw0]
                    simp [regsFor, hregs]
                  · rw [alookup_appendWaiter_ne _ _ _ _ hq] at hws
                    have hqq : r.fp ≠ q := fun hh => hq hh.symm
                    have hh2 := hfw q ws hws
                    simp [regsFor] at hh2
                    simp [regsFor, hregs, hqq]
                    exact hh2
                · intro q o hq
                  have hne : q ≠ r.fp := by
                    intro hh
                    subst hh
                    rw [hd] at hq
                    exact Option.noConfusion hq
                  have hqq : r.fp ≠ q := fun hh => hne hh.symm
                  have hh2 := hfd q o hq
                  simp [deliveriesFor, regsFor] at hh2
                  simp [deliveriesFor, regsFor, hregs, hqq]
                  exact hh2
                · exact hnd
                · intro q hq1 hq2
                  have hne : q ≠ r.fp := by
                    intro hh
                    subst hh
                    exact hq1 hdl
                  have hqq : r.fp ≠ q := fun hh => hne hh.symm
                  have hh2 := hru q hq1 hq2
                  simp [regsFor] at hh2
                  simp [regsFor, hregs, hqq]
                  exact hh2
                · exact hhd
                · exact hhn
              · -- unseen: mark downloading, register, invoke the Downloader
                have hst : step st (.dispatch w r) =
                    { st with
                        info := { st.info with
                          downloading := st.info.downloading ++ [r.fp]
                          waiting := appendWaiter st.info.waiting r.fp w }
                        regs := st.regs ++ [(w, r.fp)]
                        dlCalls := st.dlCalls ++ [r.fp] } := by
                  simp [step, processRequest, hm, hd, hdl]
                rw [hst]
                have hregs : ∀ q, regsForL (st.regs ++ [(w, r.fp)]) q =
                    regsForL st.regs q ++ (if r.fp = q then [w] else []) := by
                  intro q
                  rw [regsForL_append, regsForL_single]
                have hnotdl : r.fp ∉ st.dlCalls := by
                  intro hmem
                  rcases (hdlchar r.fp).mp hmem with hc | hc
                  · exact hdl hc
                  · rw [hd] at hc
                    simp at hc
                constructor
                · intro q
                  by_cases hq : q = r.fp
                  · subst hq
                    simp [alookup_appendWaiter_self]
                  · simp only [List.mem_append, List.mem_singleton]
                    rw [alookup_appendWaiter_ne _ _ _ _ hq]
                    simpa [hq] using hphase q
                · intro q hq
                  simp only [List.mem_append, List.mem_singleton] at hq
                  rcases hq with hq | hq
                  · exact hexcl q hq
                  · subst hq
                    exact hd
                · simpa [List.nodup_append] using ⟨hdlnd, hnotdl⟩
                · intro q
                  simp only [List.mem_append, List.mem_singleton]
                  by_cases hq : q = r.fp
                  · subst hq
                    simp
                  · simpa [hq] using hdlchar q
                · intro q ws hws
                  by_cases hq : q = r.fp
                  · subst hq
                    rw [alookup_appendWaiter_self] at hws
                    have hnone : alookup st.info.waiting r.fp = none := by
                      rcases hcase : alookup st.info.waiting r.fp with _ | ws1
                      · rfl
                      · exact absurd ((hphase r.fp).mpr (by simp [hcase])) hdl
                    rw [hnone] at hws
                    simp only [Option.getD_none, List.nil_append] at hws
                    have hru0 : regsForL st.regs r.fp = [] := hru r.fp hdl hd
                    have hws2 : ws = [w] := by
                      injection hws with hh
                      exact hh.symm
                    rw [hws2]
                    simp [regsFor, hregs, hru0]
                  · rw [alookup_appendWaiter_ne _ _ _ _ hq] at hws
                    have hqq : r.fp ≠ q := fun hh => hq hh.symm
                    have hh2 := hfw q ws hws
                    simp [regsFor] at hh2
                    simp [regsFor, hregs, hqq]
                    exact hh2
                · intro q o hq
                  have hne : q ≠ r.fp := by
                    intro hh
                    subst hh
                    rw [hd] at hq
                    exact Option.noConfusion hq
                  have hqq : r.fp ≠ q := fun hh => hne hh.symm
                  have hh2 := hfd q o hq
                  simp [deliveriesFor, regsFor] at hh2
                  simp [deliveriesFor, regsFor, hregs, hqq]
                  exact hh2
                · exact hnd
                · intro q hq1 hq2
                  simp only [List.mem_append, List.mem_singleton] at hq1
                  push_neg at hq1
                  have hqq : r.fp ≠ q := fun hh => hq1.2 hh.symm
                  have hh2 := hru q hq1.1 hq2
                  simp [regsFor] at hh2
                  simp [regsFor, hregs, hqq]
                  exact hh2
                · exact hhd
                · exact hhn
  | resolve fp0 raw =>
      by_cases hdl : fp0 ∈ st.info.downloading
      · have hsome := (hphase fp0).mp hdl
        rcases Option.isSome_iff_exists.mp hsome with ⟨ws0, hws0⟩
        have hdn : alookup st.info.downloaded fp0 = none := hexcl fp0 hdl
        have hst : step st (.resolve fp0 raw) =
            { st with
                info := { st.info with
                  downloading := st.info.downloading.filter (fun x => x != fp0)
                  waiting := removeKey st.info.waiting fp0
                  downloaded := (fp0, stripDefGenContext raw) :: st.info.downloaded }
                hookCalls := st.hookCalls ++ [hookFor raw fp0]
                deliveries := st.deliveries ++
                  ws0.map (fun w => (w, fp0, stripDefGenContext raw)) } := by
          simp [step, hdl, cacheResultAndExecuteWaiters, hws0]
        rw [hst]
        have hws0r : ws0 = regsForL st.regs fp0 := hfw fp0 ws0 hws0
        constructor
        · intro q
          by_cases hq : q = fp0
          · subst hq
            simp [mem_filter_bne, alookup_removeKey_self]
          · rw [alookup_removeKey_ne _ _ _ hq]
            simpa [mem_filter_bne, hq] using hphase q
        · intro q hq
          rw [mem_filter_bne] at hq
          have : fp0 ≠ q := fun hh => hq.2 hh.symm
          simp only [alookup, this, if_neg]
          exact hexcl q hq.1
        · exact hdlnd
        · intro q
          by_cases hq : q = fp0
          · subst hq
            constructor
            · intro _
              right
              simp [alookup]
            · intro _
              exact (hdlchar q).mpr (Or.inl hdl)
          · have hqq : fp0 ≠ q := fun hh => hq hh.symm
            simp only [alookup, hqq, if_neg]
            simpa [mem_filter_bne, hq] using hdlchar q
        · intro q ws hws
          by_cases hq : q = fp0
          · subst hq
            rw [alookup_removeKey_self] at hws
            exact Option.noConfusion hws
          · rw [alookup_removeKey_ne _ _ _ hq] at hws
            exact hfw q ws hws
        · intro q o hq
          by_cases hq0 : q = fp0
          · subst hq0
            rw [show alookup ((q, stripDefGenContext raw) :: st.info.downloaded) q =
                some (stripDefGenContext raw) from by simp [alookup]] at hq
            have ho : o = stripDefGenContext raw := by
              injection hq with hh
              exact hh.symm
            subst ho
            have hde : deliveriesForL st.deliveries q = [] := hnd q hdn
            simp [deliveriesFor, regsFor, deliveriesForL_append, deliveriesForL_map,
              hde, ← hws0r]
          · have hqq : fp0 ≠ q := fun hh => hq0 hh.symm
            rw [show alookup ((fp0, stripDefGenContext raw) :: st.info.downloaded) q =
                alookup st.info.downloaded q from by simp [alookup, hqq]] at hq
            have hh2 := hfd q o hq
            simp [deliveriesFor, regsFor] at hh2
            simp [deliveriesFor, regsFor, deliveriesForL_append, deliveriesForL_map, hqq]
            exact hh2
        · intro q hq
          by_cases hq0 : q = fp0
          · subst hq0
            simp [alookup] at hq
          · have hqq : fp0 ≠ q := fun hh => hq0 hh.symm
            rw [show alookup ((fp0, stripDefGenContext raw) :: st.info.downloaded) q =
                alookup st.info.downloaded q from by simp [alookup, hqq]] at hq
            have hh2 := hnd q hq
            simp [deliveriesFor] at hh2
            simp [deliveriesFor, deliveriesForL_append, deliveriesForL_map, hqq]
            exact hh2
        · intro q hq1 hq2
          by_cases hq0 : q = fp0
          · subst hq0
            simp [alookup] at hq2
          · have hqq : fp0 ≠ q := fun hh => hq0 hh.symm
            rw [show alookup ((fp0, stripDefGenContext raw) :: st.info.downloaded) q =
                alookup st.info.downloaded q from by simp [alookup, hqq]] at hq2
            rw [mem_filter_bne] at hq1
            push_neg at hq1
            have hq1a : q ∉ st.info.downloading := by
              intro hmem
              exact hq0 (hq1 hmem)
            exact hru q hq1a hq2
        · intro q hq
          by_cases hq0 : q = fp0
          · subst hq0
            have h0 : hookCallsFor st q = 0 := hhn q hdn
            simp [hookCallsFor, hookCallsForL_append, hookCallsForL_single,
              hookFor_fp] at h0 ⊢
            exact h0
          · have hqq : fp0 ≠ q := fun hh => hq0 hh.symm
            rw [show alookup ((fp0, stripDefGenContext raw) :: st.info.downloaded) q =
                alookup st.info.downloaded q from by simp [alookup, hqq]] at hq
            have h1 : hookCallsFor st q = 1 := hhd q hq
            simp [hookCallsFor, hookCallsForL_append, hookCallsForL_single,
              hookFor_fp, hqq] at h1 ⊢
            exact h1
        · intro q hq
          by_cases hq0 : q = fp0
          · subst hq0
            simp [alookup] at hq
          · have hqq : fp0 ≠ q := fun hh => hq0 hh.symm
            rw [show alookup ((fp0, stripDefGenContext raw) :: st.info.downloaded) q =
                alookup st.info.downloaded q from by simp [alookup, hqq]] at hq
            have h0 : hookCallsFor st q = 0 := hhn q hq
            simp [hookCallsFor, hookCallsForL_append, hookCallsForL_single,
              hookFor_fp, hqq] at h0 ⊢
            exact h0
      · have hst : step st (.resolve fp0 raw) = st := by
          simp [step, hdl]
        rw [hst]
        exact ⟨hphase, hexcl, hdlnd, hdlchar, hfw, hfd, hnd, hru, hhd, hhn⟩

theorem inv_run (st : EngineState) (tr : List Event) (h : EngineInv st) :
    EngineInv (run st tr) := by
  induction tr generalizing st with
  | nil => exact h
  | cons e t ih => exact ih (step st e) (inv_step st e h)

theorem inv_run_init (tr : List Event) : EngineInv (run initState tr) :=
  inv_run initState tr inv_init

/-! ## Resolve-order independence -/

/-- A batch of download completions, one event per pair. -/
def resolveEvents (rs : List (Fp × Outcome)) : List Event :=
  rs.map (fun p => Event.resolve p.1 p.2)

theorem step_dispatch_downloaded (st : EngineState) (w : WaiterId)
    (r : MediaRequest) :
    (step st (.dispatch w r)).info.downloaded = st.info.downloaded := by
  cases hm : r.metaResult with
  | some v => simp [step, processRequest, hm]
  | none =>
      cases hd : alookup st.info.downloaded r.fp with
      | some o => simp [step, processRequest, hm, hd]
      | none =>
          by_cases hdl : r.fp ∈ st.info.downloading <;>
            simp [step, processRequest, hm, hd, hdl]

/-- Cache entries are permanent: no engine operation removes or replaces a
`downloaded` entry (spec section 3: entries are never evicted). -/
theorem downloaded_mono_step (st : EngineState) (e : Event) (fp : Fp)
    (o : Outcome) (hinv : EngineInv st)
    (h : alookup st.info.downloaded fp = some o) :
    alookup (step st e).info.downloaded fp = some o := by
  cases e with
  | dispatch w r => rw [step_dispatch_downloaded]; exact h
  | resolve fp0 raw =>
      by_cases hdl : fp0 ∈ st.info.downloading
      · have hdn : alookup st.info.downloaded fp0 = none := hinv.excl fp0 hdl
        have hne : fp0 ≠ fp := by
          intro hh
          subst hh
          rw [hdn] at h
          exact Option.noConfusion h
        simp [step, hdl, cacheResultAndExecuteWaiters, alookup, hne]
        exact h
      · simp [step, hdl]
        exact h

theorem downloaded_mono_run (st : EngineState) (tr : List Event) (fp : Fp)
    (o : Outcome) (hinv : EngineInv st)
    (h : alookup st.info.downloaded fp = some o) :
    alookup (run st tr).info.downloaded fp = some o := by
  induction tr generalizing st with
  | nil => exact h
  | cons e t ih =>
      exact ih (step st e) (inv_step st e hinv)
        (downloaded_mono_step st e fp o hinv h)

theorem resolve_downloading_sub (st : EngineState) (fp0 : Fp) (raw : Outcome)
    (x : Fp) (hx : x ∈ (step st (.resolve fp0 raw)).info.downloading) :
    x ∈ st.info.downloading := by
  by_cases hdl : fp0 ∈ st.info.downloading
  · simp [step, hdl, cacheResultAndExecuteWaiters, mem_filter_bne] at hx
    exact hx.1
  · simpa [step, hdl] using hx

/-- An identifier never seen stays unseen while only completions happen. -/
theorem unseen_run_resolves (st : EngineState) (rs : List (Fp × Outcome))
    (fp : Fp) (hdl : fp ∉ st.info.downloading)
    (hd : alookup st.info.downloaded fp = none) :
    alookup (run st (resolveEvents rs)).info.downloaded fp = none := by
  induction rs generalizing st with
  | nil => exact hd
  | cons p t ih =>
      obtain ⟨fp0, raw⟩ := p
      have hstep : alookup (step st (.resolve fp0 raw)).info.downloaded fp = none := by
        by_cases hdl0 : fp0 ∈ st.info.downloading
        · have hne : fp0 ≠ fp := by
            intro hh
            subst hh
            exact hdl hdl0
          simp [step, hdl0, cacheResultAndExecuteWaiters, alookup, hne]
          exact hd
        · simp [step, hdl0]
          exact hd
      have hdl2 : fp ∉ (step st (.resolve fp0 raw)).info.downloading := by
        intro hmem
        exact hdl (resolve_downloading_sub st fp0 raw fp hmem)
      exact ih (step st (.resolve fp0 raw)) hdl2 hstep

/-- The cached outcome an in-flight identifier ends with is determined by
the unique completion event for it in the batch, irrespective of where in
the batch that event sits. -/
theorem inflight_run_resolves (st : EngineState) (rs : List (Fp × Outcome))
    (fp : Fp) (hinv : EngineInv st) (hnd : (rs.map Prod.fst).Nodup)
    (hdl : fp ∈ st.info.downloading) :
    alookup (run st (resolveEvents rs)).info.downloaded fp =
      (rs.find? (fun p => p.1 == fp)).map (fun p => stripDefGenContext p.2) := by
  induction rs generalizing st with
  | nil =>
      simp [resolveEvents, run, hinv.excl fp hdl]
  | cons p t ih =>
      obtain ⟨fp0, raw⟩ := p
      have hinv2 : EngineInv (step st (.resolve fp0 raw)) :=
        inv_step st (.resolve fp0 raw) hinv
      have hre : resolveEvents ((fp0, raw) :: t) =
          Event.resolve fp0 raw :: resolveEvents t := rfl
      by_cases hq : fp0 = fp
      · subst hq
        have hcache :
            alookup (step st (.resolve fp0 raw)).info.downloaded fp0 =
              some (stripDefGenContext raw) := by
          simp [step, hdl, cacheResultAndExecuteWaiters, alookup]
        have hrest := downloaded_mono_run (step st (.resolve fp0 raw))
          (resolveEvents t) fp0 (stripDefGenContext raw) hinv2 hcache
        rw [hre, run, List.find?_cons_of_pos _ (by simp)]
        simpa using hrest
      · have hdl2 : fp ∈ (step st (.resolve fp0 raw)).info.downloading := by
          by_cases hdl0 : fp0 ∈ st.info.downloading
          · simp [step, hdl0, cacheResultAndExecuteWaiters, mem_filter_bne]
            exact ⟨hdl, fun hh => hq hh.symm⟩
          · simpa [step, hdl0] using hdl
        have hnd2 : (t.map Prod.fst).Nodup := by
          simp [List.nodup_cons] at hnd
          exact hnd.2
        rw [hre, run, List.find?_cons_of_neg _ (by simp [hq])]
        exact ih (step st (.resolve fp0 raw)) hinv2 hnd2 hdl2

/-- With at most one completion per identifier, looking the completion up
is invariant under reordering the batch. -/
theorem find?_key_unique {β : Type} (l : List (Fp × β)) (k : Fp) (v1 v2 : β)
    (hnd : (l.map Prod.fst).Nodup) (h1 : (k, v1) ∈ l) (h2 : (k, v2) ∈ l) :
    v1 = v2 := by
  induction l with
  | nil => cases h1
  | cons a t ih =>
      obtain ⟨ka, va⟩ := a
      rw [List.map_cons, List.nodup_cons] at hnd
      rcases List.mem_cons.mp h1 with hh1 | hh1 <;>
        rcases List.mem_cons.mp h2 with hh2 | hh2
      · rw [← hh2] at hh1
        exact (Prod.ext_iff.mp hh1).2
      · exfalso
        have e1 : k = ka := (Prod.ext_iff.mp hh1).1
        apply hnd.1
        rw [← e1]
        exact List.mem_map.mpr ⟨(k, v2), hh2, rfl⟩
      · exfalso
        have e1 : k = ka := (Prod.ext_iff.mp hh2).1
        apply hnd.1
        rw [← e1]
        exact List.mem_map.mpr ⟨(k, v1), hh1, rfl⟩
      · exact ih hnd.2 hh1 hh2

theorem find?_key_perm (rs1 rs2 : List (Fp × Outcome)) (fp : Fp)
    (hperm : rs1.Perm rs2) (hnd : (rs1.map Prod.fst).Nodup) :
    rs1.find? (fun p => p.1 == fp) = rs2.find? (fun p => p.1 == fp) := by
  cases h1 : rs1.find? (fun p => p.1 == fp) with
  | none =>
      have hall := List.find?_eq_none.mp h1
      symm
      rw [List.find?_eq_none]
      intro x hx
      exact hall x (hperm.mem_iff.mpr hx)
  | some a =>
      obtain ⟨k, v⟩ := a
      have hpred := List.find?_some h1
      have hmem : (k, v) ∈ rs1 := List.mem_of_find?_eq_some h1
      have hmem2 : (k, v) ∈ rs2 := hperm.mem_iff.mp hmem
      have hsome2 : (rs2.find? (fun p => p.1 == fp)).isSome := by
        rw [List.find?_isSome]
        exact ⟨(k, v), hmem2, hpred⟩
      rcases Option.isSome_iff_exists.mp hsome2 with ⟨a2, ha2⟩
      obtain ⟨k2, v2⟩ := a2
      have hpred2 := List.find?_some ha2
      have hk : k = fp := by simpa using hpred
      have hk2 : k2 = fp := by simpa using hpred2
      have hmem3 : (k2, v2) ∈ rs1 :=
        hperm.mem_iff.mpr (List.mem_of_find?_eq_some ha2)
      rw [hk] at hmem
      rw [hk2] at hmem3
      have hv : v = v2 := find?_key_unique rs1 fp v v2 hnd hmem hmem3
      rw [ha2, hv, hk, hk2]

/-! ## Helper facts about deliveries -/

theorem mem_deliveriesFor (st : EngineState) (w : WaiterId) (fp : Fp)
    (o : Outcome) (h : (w, fp, o) ∈ st.deliveries) :
    (w, fp, o) ∈ deliveriesFor st fp := by
  rw [deliveriesFor, deliveriesForL]
  exact List.mem_filter.mpr ⟨h, by simp⟩

/-- Every waiter resolution delivers exactly the session cache's entry for
the identifier. -/
theorem delivery_is_cached (st : EngineState) (hinv : EngineInv st)
    (w : WaiterId) (fp : Fp) (o : Outcome)
    (h : (w, fp, o) ∈ st.deliveries) :
    alookup st.info.downloaded fp = some o := by
  rcases hc : alookup st.info.downloaded fp with _ | o0
  · exfalso
    have hde := hinv.noDeliv fp hc
    have hm := mem_deliveriesFor st w fp o h
    rw [hde] at hm
    cases hm
  · have hfd := hinv.fifoDone fp o0 hc
    have hm := mem_deliveriesFor st w fp o h
    rw [hfd] at hm
    rcases List.mem_map.mp hm with ⟨w2, _, he⟩
    have ho : o0 = o := congrArg (fun t => t.2.2) he
    rw [ho]

/-! ## Claims -/

/-- Claim C1: for any session trace, the Downloader is invoked at most once
per Resource Identifier — the invocation log never repeats an identifier —
and any two callers resolved for the same identifier receive the identical
cached outcome object: the session cache's entry for that identifier. -/
theorem dedup_single_download_shared_outcome (tr : List Event)
    (w1 w2 : WaiterId) (fp : Fp) (o1 o2 : Outcome)
    (h1 : (w1, fp, o1) ∈ (run initState tr).deliveries)
    (h2 : (w2, fp, o2) ∈ (run initState tr).deliveries) :
    (run initState tr).dlCalls.Nodup ∧ o1 = o2 ∧
      alookup (run initState tr).info.downloaded fp = some o1 := by
  have hinv := inv_run_init tr
  have hc1 := delivery_is_cached (run initState tr) hinv w1 fp o1 h1
  have hc2 := delivery_is_cached (run initState tr) hinv w2 fp o2 h2
  refine ⟨hinv.dlNodup, ?_, hc1⟩
  rw [hc1] at hc2
  exact Option.some.inj hc2

/-- Claim C1 witness: two concurrent dispatches of the same identifier
followed by one completion; both waiters were delivered the same cached
response. -/
theorem dedup_single_download_shared_outcome_witness :
    ((1, 5, Outcome.success 10) ∈
        (run initState [.dispatch 1 ⟨5, none⟩, .dispatch 2 ⟨5, none⟩,
          .resolve 5 (.success 10)]).deliveries ∧
      (2, 5, Outcome.success 10) ∈
        (run initState [.dispatch 1 ⟨5, none⟩, .dispatch 2 ⟨5, none⟩,
          .resolve 5 (.success 10)]).deliveries) ∧
    ((run initState [.dispatch 1 ⟨5, none⟩, .dispatch 2 ⟨5, none⟩,
        .resolve 5 (.success 10)]).dlCalls.Nodup ∧
      Outcome.success 10 = Outcome.success 10 ∧
      alookup (run initState [.dispatch 1 ⟨5, none⟩, .dispatch 2 ⟨5, none⟩,
        .resolve 5 (.success 10)]).info.downloaded 5 = some (.success 10)) :=
  ⟨⟨by decide, by decide⟩,
    dedup_single_download_shared_outcome
      [.dispatch 1 ⟨5, none⟩, .dispatch 2 ⟨5, none⟩, .resolve 5 (.success 10)]
      1 2 5 (.success 10) (.success 10) (by decide) (by decide)⟩

/-- Claim C2: dispatching a request whose identifier is already in the
session cache returns the cached outcome and leaves the engine state
completely unchanged — no Downloader invocation, no
`media_downloaded`/`media_failed` re-invocation — and over the whole
session the success/failure hook for that identifier has fired exactly
once, at first resolution.  The state is session-scoped, so this holds
across items. -/
theorem cached_dispatch_returns_cached (tr : List Event) (w : WaiterId)
    (r : MediaRequest) (o : Outcome) (hpre : r.metaResult = none)
    (hc : alookup (run initState tr).info.downloaded r.fp = some o) :
    processRequest w r (run initState tr) = (.resolved o, run initState tr) ∧
      hookCallsFor (run initState tr) r.fp = 1 := by
  constructor
  · simp [processRequest, hpre, hc]
  · exact (inv_run_init tr).hooksDone r.fp (by simp [hc])

/-- Claim C2 witness: after downloading identifier 5 in a first item, a
request for it from a later item is answered from the cache with the state
untouched. -/
theorem cached_dispatch_returns_cached_witness :
    ((⟨5, none⟩ : MediaRequest).metaResult = none ∧
      alookup (run initState [.dispatch 1 ⟨5, none⟩,
        .resolve 5 (.success 10)]).info.downloaded 5 = some (.success 10)) ∧
    (processRequest 2 ⟨5, none⟩
        (run initState [.dispatch 1 ⟨5, none⟩, .resolve 5 (.success 10)]) =
      (.resolved (.success 10),
        run initState [.dispatch 1 ⟨5, none⟩, .resolve 5 (.success 10)]) ∧
      hookCallsFor (run initState [.dispatch 1 ⟨5, none⟩,
        .resolve 5 (.success 10)]) 5 = 1) :=
  ⟨⟨by decide, by decide⟩,
    cached_dispatch_returns_cached [.dispatch 1 ⟨5, none⟩, .resolve 5 (.success 10)]
      2 ⟨5, none⟩ (.success 10) (by decide) (by decide)⟩

/-- Claim C3: when an identifier has resolved, the log of waiter
resolutions for it is exactly the log of waiter registrations for it, in
the same (FIFO) order, each waiter receiving the same cached outcome
object — not a per-waiter recomputed value. -/
theorem fifo_fanout_same_outcome (tr : List Event) (fp : Fp) (o : Outcome)
    (hc : alookup (run initState tr).info.downloaded fp = some o) :
    deliveriesFor (run initState tr) fp =
      (regsFor (run initState tr) fp).map (fun w => (w, fp, o)) :=
  (inv_run_init tr).fifoDone fp o hc

/-- Claim C3 witness: waiters 1, 2, 3 registered for identifier 5 before
its resolution are delivered in registration order with the one cached
outcome. -/
theorem fifo_fanout_same_outcome_witness :
    alookup (run initState [.dispatch 1 ⟨5, none⟩, .dispatch 2 ⟨5, none⟩,
        .dispatch 3 ⟨5, none⟩, .resolve 5 (.success 10)]).info.downloaded 5 =
      some (.success 10) ∧
    deliveriesFor (run initState [.dispatch 1 ⟨5, none⟩, .dispatch 2 ⟨5, none⟩,
        .dispatch 3 ⟨5, none⟩, .resolve 5 (.success 10)]) 5 =
      (regsFor (run initState [.dispatch 1 ⟨5, none⟩, .dispatch 2 ⟨5, none⟩,
        .dispatch 3 ⟨5, none⟩, .resolve 5 (.success 10)]) 5).map
        (fun w => (w, 5, .success 10)) :=
  ⟨by decide,
    fifo_fanout_same_outcome
      [.dispatch 1 ⟨5, none⟩, .dispatch 2 ⟨5, none⟩, .dispatch 3 ⟨5, none⟩,
        .resolve 5 (.success 10)] 5 (.success 10) (by decide)⟩

/-- Claim C4: the results list the completion barrier presents for an item
is indexed by the item's original request order — entry `i` is the settled
outcome of request `i` — and is unchanged under any reordering of the
completion events, so it does not depend on the order in which the
sub-downloads finished. -/
theorem item_results_request_order (tr : List Event) (reqs : List MediaRequest)
    (rs1 rs2 : List (Fp × Outcome)) (hperm : rs1.Perm rs2)
    (hnd : (rs1.map Prod.fst).Nodup) :
    itemResults (run (run initState tr) (resolveEvents rs1)) reqs =
      itemResults (run (run initState tr) (resolveEvents rs2)) reqs ∧
    ∀ i (hi : i < reqs.length),
      (itemResults (run (run initState tr) (resolveEvents rs1)) reqs).get
          ⟨i, by simpa [itemResults] using hi⟩ =
        (finalOutcome (run (run initState tr) (resolveEvents rs1))
          (reqs.get ⟨i, hi⟩)).map resultEntry := by
  have hinv0 : EngineInv (run initState tr) := inv_run_init tr
  have hnd2 : (rs2.map Prod.fst).Nodup := ((hperm.map Prod.fst).nodup_iff).mp hnd
  constructor
  · apply List.map_congr_left
    intro r _
    cases hm : r.metaResult with
    | some v => simp [finalOutcome, hm]
    | none =>
        have hlook :
            alookup (run (run initState tr) (resolveEvents rs1)).info.downloaded r.fp =
              alookup (run (run initState tr) (resolveEvents rs2)).info.downloaded r.fp := by
          rcases hc : alookup (run initState tr).info.downloaded r.fp with _ | o
          · by_cases hdl : r.fp ∈ (run initState tr).info.downloading
            · rw [inflight_run_resolves (run initState tr) rs1 r.fp hinv0 hnd hdl,
                inflight_run_resolves (run initState tr) rs2 r.fp hinv0 hnd2 hdl,
                find?_key_perm rs1 rs2 r.fp hperm hnd]
            · rw [unseen_run_resolves (run initState tr) rs1 r.fp hdl hc,
                unseen_run_resolves (run initState tr) rs2 r.fp hdl hc]
          · rw [downloaded_mono_run (run initState tr) (resolveEvents rs1) r.fp o hinv0 hc,
              downloaded_mono_run (run initState tr) (resolveEvents rs2) r.fp o hinv0 hc]
        simp [finalOutcome, hm, hlook]
  · intro i hi
    simp [itemResults]

/-- Claim C4 witness: an item dispatching requests [A, B] and the two
completion orders [A then B] and [B then A] yield the same results list,
still presenting A's entry first. -/
theorem item_results_request_order_witness :
    ([((5 : Fp), Outcome.success 10), (7, Outcome.success 20)].Perm
        [(7, Outcome.success 20), (5, Outcome.success 10)] ∧
      (([((5 : Fp), Outcome.success 10), (7, Outcome.success 20)].map
        Prod.fst).Nodup)) ∧
    itemResults (run (run initState [.dispatch 1 ⟨5, none⟩, .dispatch 2 ⟨7, none⟩])
        (resolveEvents [(5, .success 10), (7, .success 20)]))
        [⟨5, none⟩, ⟨7, none⟩] =
      itemResults (run (run initState [.dispatch 1 ⟨5, none⟩, .dispatch 2 ⟨7, none⟩])
        (resolveEvents [(7, .success 20), (5, .success 10)]))
        [⟨5, none⟩, ⟨7, none⟩] :=
  ⟨⟨by decide, by decide⟩,
    (item_results_request_order [.dispatch 1 ⟨5, none⟩, .dispatch 2 ⟨7, none⟩]
      [⟨5, none⟩, ⟨7, none⟩] [(5, .success 10), (7, .success 20)]
      [(7, .success 20), (5, .success 10)] (by decide) (by decide)).1⟩

/-- An identifier the session has not met: not downloading, no waiter
entry, not cached. -/
def unseenPhase (i : SpiderInfo) (fp : Fp) : Prop :=
  fp ∉ i.downloading ∧ alookup i.waiting fp = none ∧
    alookup i.downloaded fp = none

/-- An identifier with a download in flight: downloading, with a waiting
entry (possibly the empty list), not yet cached. -/
def inflightPhase (i : SpiderInfo) (fp : Fp) : Prop :=
  fp ∈ i.downloading ∧ (alookup i.waiting fp).isSome ∧
    alookup i.downloaded fp = none

/-- A settled identifier: cached, no longer downloading, no waiter entry. -/
def donePhase (i : SpiderInfo) (fp : Fp) : Prop :=
  fp ∉ i.downloading ∧ alookup i.waiting fp = none ∧
    (alookup i.downloaded fp).isSome

/-- Claim C5: in every reachable coordination state each identifier is in
exactly one of the three phases — unseen, in flight (with a waiting entry),
or cached — and in particular never simultaneously in `downloading` and in
`downloaded`.  Quantifying over every trace makes this preservation by
every engine operation. -/
theorem phase_partition (tr : List Event) (fp : Fp) :
    (unseenPhase (run initState tr).info fp ∨
      inflightPhase (run initState tr).info fp ∨
      donePhase (run initState tr).info fp) ∧
    ¬(unseenPhase (run initState tr).info fp ∧
        inflightPhase (run initState tr).info fp) ∧
    ¬(unseenPhase (run initState tr).info fp ∧
        donePhase (run initState tr).info fp) ∧
    ¬(inflightPhase (run initState tr).info fp ∧
        donePhase (run initState tr).info fp) ∧
    ¬(fp ∈ (run initState tr).info.downloading ∧
        (alookup (run initState tr).info.downloaded fp).isSome) := by
  have hinv := inv_run_init tr
  refine ⟨?_, ?_, ?_, ?_, ?_⟩
  · by_cases hdl : fp ∈ (run initState tr).info.downloading
    · right
      left
      exact ⟨hdl, (hinv.phase fp).mp hdl, hinv.excl fp hdl⟩
    · have hw : alookup (run initState tr).info.waiting fp = none := by
        rcases hcase : alookup (run initState tr).info.waiting fp with _ | ws
        · rfl
        · exact absurd ((hinv.phase fp).mpr (by simp [hcase])) hdl
      rcases hc : alookup (run initState tr).info.downloaded fp with _ | o
      · exact Or.inl ⟨hdl, hw, hc⟩
      · exact Or.inr (Or.inr ⟨hdl, hw, by simp [hc]⟩)
  · rintro ⟨⟨hu, -, -⟩, ⟨hf, -, -⟩⟩
    exact hu hf
  · rintro ⟨⟨-, -, hu⟩, ⟨-, -, hdo⟩⟩
    rw [hu] at hdo
    cases hdo
  · rintro ⟨⟨-, -, hf⟩, ⟨-, -, hdo⟩⟩
    rw [hf] at hdo
    cases hdo
  · rintro ⟨hdl, hdo⟩
    rw [hinv.excl fp hdl] at hdo
    cases hdo

/-- Claim C6: a request whose `media_to_download` hook supplies a canned
result resolves immediately to that value as a success, with the engine
state untouched: the Downloader is not contacted, no
`media_downloaded`/`media_failed` hook fires, and nothing enters the dedup
cache — so a second request for the same identifier (without a canned
result) still goes through the full download-and-cache path, invoking the
Downloader. -/
theorem preresolved_bypasses_cache (st : EngineState) (w w2 : WaiterId)
    (r r2 : MediaRequest) (v : Val) (hv : r.metaResult = some v)
    (hfp : r2.fp = r.fp) (hpre2 : r2.metaResult = none)
    (hdl : r.fp ∉ st.info.downloading)
    (hc : alookup st.info.downloaded r.fp = none) :
    processRequest w r st = (.resolved (.success v), st) ∧
      finalOutcome st r = some (.success v) ∧
      (processRequest w2 r2 (processRequest w r st).2).2.dlCalls =
        st.dlCalls ++ [r.fp] := by
  refine ⟨by simp [processRequest, hv], by simp [finalOutcome, hv], ?_⟩
  simp [processRequest, hv, hpre2, hfp, hc, hdl]

/-- Claim C6 witness: the `test_use_media_to_download_result` scenario — a
canned result resolves without touching the state; an identical request
without the canned result then downloads. -/
theorem preresolved_bypasses_cache_witness :
    ((⟨5, some 7⟩ : MediaRequest).metaResult = some 7 ∧
      (⟨5, none⟩ : MediaRequest).fp = (⟨5, some 7⟩ : MediaRequest).fp ∧
      (⟨5, none⟩ : MediaRequest).metaResult = none ∧
      (⟨5, some 7⟩ : MediaRequest).fp ∉ initState.info.downloading ∧
      alookup initState.info.downloaded (⟨5, some 7⟩ : MediaRequest).fp = none) ∧
    (processRequest 1 ⟨5, some 7⟩ initState =
        (.resolved (.success 7), initState) ∧
      finalOutcome initState ⟨5, some 7⟩ = some (.success 7) ∧
      (processRequest 2 ⟨5, none⟩
          (processRequest 1 ⟨5, some 7⟩ initState).2).2.dlCalls =
        initState.dlCalls ++ [5]) :=
  ⟨⟨by decide, by decide, by decide, by decide, by decide⟩,
    preresolved_bypasses_cache initState 1 2 ⟨5, some 7⟩ ⟨5, none⟩ 7
      (by decide) (by decide) (by decide) (by decide) (by decide)⟩

/-- Claim C7 (counterexample): the claim attaches the exclusion list to the
redirects-not-allowed configuration and the handle-everything tagging to
the redirects-allowed one.  The tests pin the opposite polarity: with
default settings (redirects not allowed) the request is tagged
`handle_httpstatus_all`, so status 301 *is* handled as a normal response,
and with `MEDIA_ALLOW_REDIRECTS` enabled the tagged status list excludes
301, so 301 is *not* handled (the downloader follows it).  Both halves of
the instantiated claim are false. -/
theorem redirect_policy_claim_counterexample :
    ¬((mediaRequestMeta "MediaPipeline" []).handles 301 = false ∧
      (mediaRequestMeta "MediaPipeline"
        [("MEDIA_ALLOW_REDIRECTS", true)]).handles 301 = true) := by
  decide

/-- Claim C7 (amended): when redirects are allowed for media sub-downloads
the engine tags each request's handled-status set to exclude the whole 3xx
range — 301/302/307/308 surface to the downloader's redirect handling —
while every other status (2xx plus 4xx/5xx) is handled as a normal
response; when redirects are not allowed (the default) the request is
tagged to handle every status as a normal response, so redirects surface
unfollowed.  The allow-redirects setting has the global
`MEDIA_ALLOW_REDIRECTS` default and a per-concrete-subclass override. -/
theorem redirect_policy_amended :
    (∀ status,
      (mediaRequestMeta "MediaPipeline"
          [("MEDIA_ALLOW_REDIRECTS", true)]).handles status = true ↔
        (status < 300 ∨ 400 ≤ status)) ∧
    (∀ status, (mediaRequestMeta "MediaPipeline" []).handles status = true) ∧
    getAllowRedirects "UserDefinedPipeline"
      [("USERDEFINEDPIPELINE_MEDIA_ALLOW_REDIRECTS", true)] = true ∧
    getAllowRedirects "UserDefinedPipeline"
      [("MEDIA_ALLOW_REDIRECTS", true)] = true ∧
    getAllowRedirects "MediaPipeline" [] = false := by
  refine ⟨?_, ?_, by decide, by decide, by decide⟩
  · intro status
    have hmeta : mediaRequestMeta "MediaPipeline" [("MEDIA_ALLOW_REDIRECTS", true)] =
        { handle_httpstatus_list := some (.seqExclude 300 400)
          handle_httpstatus_all := false } := by decide
    rw [hmeta]
    simp [MediaMeta.handles, StatusSet.contains]
  · intro status
    have hmeta : mediaRequestMeta "MediaPipeline" [] =
        { handle_httpstatus_list := none
          handle_httpstatus_all := true } := by decide
    rw [hmeta]
    simp [MediaMeta.handles]

/-- Claim C8: an item whose sub-downloads are a mix of successes and
failures still completes — the results list the barrier passes is
full-length (one entry per request) and the default finalizer returns the
item unchanged; with failure logging enabled it emits exactly one
ERROR-severity record per failed entry, each carrying that failure's value
as its error context, and with logging disabled it emits none. -/
theorem partial_failure_still_completes (st : EngineState)
    (reqs : List MediaRequest) (item : Item)
    (results : List (Bool × Outcome))
    (_hmix : (∃ p ∈ results, p.1 = true) ∧ ∃ p ∈ results, p.1 = false) :
    (itemCompleted results item true).1 = item ∧
    (itemCompleted results item false).1 = item ∧
    (itemCompleted results item true).2.length =
      (results.filter (fun p => !p.1)).length ∧
    (∀ rec ∈ (itemCompleted results item true).2,
      rec.level = .error ∧ (false, rec.excInfo) ∈ results) ∧
    (itemCompleted results item false).2 = [] ∧
    (itemResults st reqs).length = reqs.length := by
  refine ⟨rfl, rfl, by simp [itemCompleted], ?_, rfl, by simp [itemResults]⟩
  intro rec hrec
  simp only [itemCompleted, if_pos] at hrec
  rcases List.mem_map.mp hrec with ⟨p, hp, he⟩
  rcases List.mem_filter.mp hp with ⟨hpmem, hp1⟩
  have hp1f : p.1 = false := by simpa using hp1
  constructor
  · rw [← he]
  · have hexc : rec.excInfo = p.2 := by rw [← he]
    rw [hexc, ← hp1f]
    exact hpmem

/-- Claim C8 witness: a two-request item with one success and one failure:
one ERROR record is logged with the failure's context when logging is
enabled, none when disabled, and the item is returned unchanged. -/
theorem partial_failure_still_completes_witness :
    ((∃ p ∈ [(true, Outcome.success 1),
        (false, Outcome.failure (.mk .genericException none))], p.1 = true) ∧
      ∃ p ∈ [(true, Outcome.success 1),
        (false, Outcome.failure (.mk .genericException none))], p.1 = false) ∧
    ((itemCompleted [(true, Outcome.success 1),
        (false, Outcome.failure (.mk .genericException none))] 9 true).1 = 9 ∧
      (itemCompleted [(true, Outcome.success 1),
        (false, Outcome.failure (.mk .genericException none))] 9 false).1 = 9 ∧
      (itemCompleted [(true, Outcome.success 1),
          (false, Outcome.failure (.mk .genericException none))] 9 true).2.length =
        ([(true, Outcome.success 1),
          (false, Outcome.failure (.mk .genericException none))].filter
            (fun p => !p.1)).length ∧
      (∀ rec ∈ (itemCompleted [(true, Outcome.success 1),
          (false, Outcome.failure (.mk .genericException none))] 9 true).2,
        rec.level = .error ∧ (false, rec.excInfo) ∈
          [(true, Outcome.success 1),
            (false, Outcome.failure (.mk .genericException none))]) ∧
      (itemCompleted [(true, Outcome.success 1),
        (false, Outcome.failure (.mk .genericException none))] 9 false).2 = [] ∧
      (itemResults initState [⟨5, none⟩, ⟨7, none⟩]).length =
        [(⟨5, none⟩ : MediaRequest), ⟨7, none⟩].length) :=
  ⟨⟨⟨(true, Outcome.success 1), by decide⟩,
      ⟨(false, Outcome.failure (.mk .genericException none)), by decide⟩⟩,
    partial_failure_still_completes initState [⟨5, none⟩, ⟨7, none⟩] 9
      [(true, Outcome.success 1),
        (false, Outcome.failure (.mk .genericException none))]
      ⟨⟨(true, Outcome.success 1), by decide⟩,
        ⟨(false, Outcome.failure (.mk .genericException none)), by decide⟩⟩⟩

/-- Claim C10: when a Failure outcome is cached by
`_cache_result_and_execute_waiters` and the wrapped exception's context is
the `StopIteration`/`_DefGen_Return` carrying an inline-callback return
value, the cached entry is a Failure wrapping the same exception value with
its context dropped, so the cache does not retain the returned Response. -/
theorem cache_strips_defgen_context (st : EngineState) (fp : Fp)
    (k : ExcKind) (c : Exc) (hc : c.kind = .stopIteration) :
    alookup (cacheResultAndExecuteWaiters (.failure (.mk k (some c)))
        fp st).info.downloaded fp =
      some (.failure (.mk k none)) := by
  cases c with
  | mk ck cctx =>
      simp only [Exc.kind] at hc
      subst hc
      simp [cacheResultAndExecuteWaiters, stripDefGenContext, Exc.ctx, Exc.kind,
        alookup]

/-- Claim C10 witness: the regression-test scenario — a `FileException`
whose context is the `_DefGen_Return`-style `StopIteration`, cached for an
in-flight identifier with an empty waiter list; the cached failure keeps
the `FileException` but loses the context. -/
theorem cache_strips_defgen_context_witness :
    (Exc.mk .stopIteration none).kind = .stopIteration ∧
    alookup (cacheResultAndExecuteWaiters
        (.failure (.mk .fileException (some (.mk .stopIteration none)))) 5
        { info := { downloading := [5], waiting := [(5, [])], downloaded := [] }
          dlCalls := [5]
          hookCalls := []
          regs := []
          deliveries := [] }).info.downloaded 5 =
      some (.failure (.mk .fileException none)) :=
  ⟨by decide,
    cache_strips_defgen_context
      { info := { downloading := [5], waiting := [(5, [])], downloaded := [] }
        dlCalls := [5]
        hookCalls := []
        regs := []
        deliveries := [] } 5 .fileException (.mk .stopIteration none) (by decide)⟩

/-! ## Dispatch marks every element of an item as seen -/

theorem step_dispatch_downloading_mono (st : EngineState) (w : WaiterId)
    (r : MediaRequest) (x : Fp) (hx : x ∈ st.info.downloading) :
    x ∈ (step st (.dispatch w r)).info.downloading := by
  cases hm : r.metaResult with
  | some v => simpa [step, processRequest, hm] using hx
  | none =>
      cases hd : alookup st.info.downloaded r.fp with
      | some o => simpa [step, processRequest, hm, hd] using hx
      | none =>
          by_cases hdl : r.fp ∈ st.info.downloading
          · simpa [step, processRequest, hm, hd, hdl] using hx
          · simp [step, processRequest, hm, hd, hdl, List.mem_append]
            exact Or.inl hx

/-- Dispatching a request without a canned result leaves its identifier
in flight or cached. -/
theorem dispatch_marks_seen (st : EngineState) (w : WaiterId)
    (r : MediaRequest) (hq : r.metaResult = none) :
    r.fp ∈ (step st (.dispatch w r)).info.downloading ∨
      (alookup (step st (.dispatch w r)).info.downloaded r.fp).isSome := by
  cases hd : alookup st.info.downloaded r.fp with
  | some o =>
      right
      rw [step_dispatch_downloaded]
      simp [hd]
  | none =>
      left
      by_cases hdl : r.fp ∈ st.info.downloading
      · simp [step, processRequest, hq, hd, hdl]
      · simp [step, processRequest, hq, hd, hdl, List.mem_append]

theorem seen_step_dispatch (st : EngineState) (w : WaiterId)
    (r : MediaRequest) (fp : Fp)
    (h : fp ∈ st.info.downloading ∨ (alookup st.info.downloaded fp).isSome) :
    fp ∈ (step st (.dispatch w r)).info.downloading ∨
      (alookup (step st (.dispatch w r)).info.downloaded fp).isSome := by
  rcases h with h | h
  · exact Or.inl (step_dispatch_downloading_mono st w r fp h)
  · right
    rw [step_dispatch_downloaded]
    exact h

theorem seen_run_dispatches (evs : List Event) (st : EngineState) (fp : Fp)
    (hdisp : ∀ e ∈ evs, ∃ w r, e = Event.dispatch w r)
    (h : fp ∈ st.info.downloading ∨ (alookup st.info.downloaded fp).isSome) :
    fp ∈ (run st evs).info.downloading ∨
      (alookup (run st evs).info.downloaded fp).isSome := by
  induction evs generalizing st with
  | nil => exact h
  | cons e t ih =>
      rcases hdisp e (List.mem_cons_self e t) with ⟨w, r, he⟩
      subst he
      exact ih (step st (.dispatch w r))
        (fun e2 he2 => hdisp e2 (List.mem_cons_of_mem _ he2))
        (seen_step_dispatch st w r fp h)

/-- A request dispatched somewhere in a batch of dispatch events ends the
batch with its identifier in flight or cached. -/
theorem seen_of_dispatched (evs : List Event) (st : EngineState)
    (q : MediaRequest) (hq : q.metaResult = none)
    (hmem : ∃ w, Event.dispatch w q ∈ evs)
    (hdisp : ∀ e ∈ evs, ∃ w r, e = Event.dispatch w r) :
    q.fp ∈ (run st evs).info.downloading ∨
      (alookup (run st evs).info.downloaded q.fp).isSome := by
  induction evs generalizing st with
  | nil =>
      rcases hmem with ⟨w, hw⟩
      cases hw
  | cons e t ih =>
      rcases hmem with ⟨w, hw⟩
      rcases List.mem_cons.mp hw with hw | hw
      · subst hw
        exact seen_run_dispatches t (step st (.dispatch w q)) q.fp
          (fun e2 he2 => hdisp e2 (List.mem_cons_of_mem _ he2))
          (dispatch_marks_seen st w q hq)
      · exact ih (step st e) ⟨w, hw⟩
          (fun e2 he2 => hdisp e2 (List.mem_cons_of_mem _ he2))

/-- Claim C9: the `get_media_requests` hook result is normalized
polymorphically and order-preservingly — `None` to the empty sequence, a
single request to a one-element sequence, an iterable to itself — and each
normalized element is dispatched and cached: after the item's dispatch
phase every element's identifier is in flight or already cached, and once
a completion batch covering those identifiers has run, every element's
identifier is in `downloaded` (single and iterable shapes alike, since
both go through the same normalized sequence).  When the hook returns
nothing, the dispatch phase leaves the engine untouched and the default
completion returns the original item unchanged with no results and no
logs. -/
theorem get_requests_normalization (r : MediaRequest) (rs : List MediaRequest)
    (item : Item) (st : EngineState) (tr : List Event) (w0 : WaiterId)
    (lf : Bool) (hr : HookRequests) (batch : List (Fp × Outcome))
    (hnd : (batch.map Prod.fst).Nodup)
    (hcover : ∀ q ∈ argToIter hr, q.metaResult = none →
      q.fp ∈ batch.map Prod.fst) :
    argToIter .noRequests = ([] : List MediaRequest) ∧
    argToIter (.single r) = [r] ∧
    argToIter (.many rs) = rs ∧
    dispatchItem w0 .noRequests st = st ∧
    itemResults st (argToIter .noRequests) = [] ∧
    itemCompleted [] item lf = (item, []) ∧
    (∀ q ∈ argToIter hr, q.metaResult = none →
      (q.fp ∈ (dispatchItem w0 hr (run initState tr)).info.downloading ∨
        (alookup (dispatchItem w0 hr
            (run initState tr)).info.downloaded q.fp).isSome)) ∧
    (∀ q ∈ argToIter hr, q.metaResult = none →
      (alookup (run (dispatchItem w0 hr (run initState tr))
          (resolveEvents batch)).info.downloaded q.fp).isSome) := by
  have hlf : itemCompleted [] item lf = (item, []) := by cases lf <;> rfl
  have hdispAll : ∀ e ∈ (argToIter hr).enum.map
      (fun p => Event.dispatch (w0 + p.1) p.2), ∃ w q, e = Event.dispatch w q := by
    intro e he
    rcases List.mem_map.mp he with ⟨p, _, hp⟩
    exact ⟨w0 + p.1, p.2, hp.symm⟩
  have hseen : ∀ q ∈ argToIter hr, q.metaResult = none →
      (q.fp ∈ (dispatchItem w0 hr (run initState tr)).info.downloading ∨
        (alookup (dispatchItem w0 hr
            (run initState tr)).info.downloaded q.fp).isSome) := by
    intro q hqmem hqnone
    have hq2 : q ∈ (argToIter hr).enum.map Prod.snd := by
      rw [List.enum_map_snd]
      exact hqmem
    rcases List.mem_map.mp hq2 with ⟨p, hp, hp2⟩
    have hqmem2 : ∃ w, Event.dispatch w q ∈ (argToIter hr).enum.map
        (fun p2 => Event.dispatch (w0 + p2.1) p2.2) :=
      ⟨w0 + p.1, List.mem_map.mpr ⟨p, hp, by rw [hp2]⟩⟩
    exact seen_of_dispatched _ (run initState tr) q hqnone hqmem2 hdispAll
  refine ⟨rfl, rfl, rfl, rfl, rfl, hlf, hseen, ?_⟩
  intro q hqmem hqnone
  have hinv1 : EngineInv (dispatchItem w0 hr (run initState tr)) :=
    inv_run (run initState tr) _ (inv_run_init tr)
  rcases hseen q hqmem hqnone with hdl | hsome
  · rw [inflight_run_resolves (dispatchItem w0 hr (run initState tr)) batch
      q.fp hinv1 hnd hdl]
    rcases List.mem_map.mp (hcover q hqmem hqnone) with ⟨p, hp, hp1⟩
    have hfs : (batch.find? (fun p2 => p2.1 == q.fp)).isSome :=
      List.find?_isSome.mpr ⟨p, hp, by simp [hp1]⟩
    rcases Option.isSome_iff_exists.mp hfs with ⟨p0, hp0⟩
    rw [hp0]
    rfl
  · rcases Option.isSome_iff_exists.mp hsome with ⟨o, ho⟩
    rw [downloaded_mono_run (dispatchItem w0 hr (run initState tr))
      (resolveEvents batch) q.fp o hinv1 ho]
    rfl

/-- Claim C9 witness: the `test_get_media_requests` iterable scenario — an
item returning two requests; after dispatch both identifiers are in
flight, and after both downloads complete both fingerprints are in
`downloaded`. -/
theorem get_requests_normalization_witness :
    (([((5 : Fp), Outcome.success 10), (7, Outcome.success 20)].map
        Prod.fst).Nodup ∧
      (∀ q ∈ argToIter (.many [⟨5, none⟩, ⟨7, none⟩]), q.metaResult = none →
        q.fp ∈ [((5 : Fp), Outcome.success 10),
          (7, Outcome.success 20)].map Prod.fst)) ∧
    (argToIter .noRequests = ([] : List MediaRequest) ∧
      argToIter (.single ⟨3, none⟩) = [⟨3, none⟩] ∧
      argToIter (.many [⟨3, none⟩]) = [⟨3, none⟩] ∧
      dispatchItem 1 .noRequests initState = initState ∧
      itemResults initState (argToIter .noRequests) = [] ∧
      itemCompleted [] 9 true = (9, []) ∧
      (∀ q ∈ argToIter (.many [⟨5, none⟩, ⟨7, none⟩]), q.metaResult = none →
        (q.fp ∈ (dispatchItem 1 (.many [⟨5, none⟩, ⟨7, none⟩])
            (run initState [])).info.downloading ∨
          (alookup (dispatchItem 1 (.many [⟨5, none⟩, ⟨7, none⟩])
            (run initState [])).info.downloaded q.fp).isSome)) ∧
      (∀ q ∈ argToIter (.many [⟨5, none⟩, ⟨7, none⟩]), q.metaResult = none →
        (alookup (run (dispatchItem 1 (.many [⟨5, none⟩, ⟨7, none⟩])
            (run initState []))
          (resolveEvents [(5, .success 10),
            (7, .success 20)])).info.downloaded q.fp).isSome)) :=
  ⟨⟨by decide, by decide⟩,
    get_requests_normalization ⟨3, none⟩ [⟨3, none⟩] 9 initState [] 1 true
      (.many [⟨5, none⟩, ⟨7, none⟩])
      [(5, .success 10), (7, .success 20)] (by decide) (by decide)⟩
